import Mathlib

/-!
Verification development for the taskcluster-cli status command and the
apis generator.  The Go code under `cmds/status/status.go` and the
`apis` generator file are shallowly embedded: Go maps become association
lists with Go's overwrite-on-insert semantics, the file system becomes an
explicit state record, HTTP fetches become an oracle record, and times
become integers counting nanoseconds (matching Go's `time.Duration`).
-/

namespace TCStatus

/-- Error taxonomy collapsing the Go `error` values produced by the status
command: transport failure, non-200 HTTP status and JSON decode failure
from `objectFromJsonURL`, `url.Parse` failure inside `ScrapePingURLs`,
cache read/parse failure from `ReadCachedURLsFile`, and the fixed
"invalid argument(s) passed" error from `validateArgs`. -/
inductive Err where
  | network
  | badStatus (code : Nat)
  | parse
  | urlParse
  | cacheRead
  | invalidArgs
deriving DecidableEq

/-- One element of `API.Entries` (struct `APIEntry` in status.go). -/
structure APIEntry where
  name : String
  route : String
deriving DecidableEq

/-- Struct `API` in status.go: a fetched reference document. -/
structure API where
  baseURL : String
  entries : List APIEntry
deriving DecidableEq

/-- Go's `map[string]string` (type `PingURLs`) as an association list in
iteration order; inserts overwrite in place (`emInsert`). -/
abbrev PingURLs := List (String × String)

/-- Go map assignment `m[k] = v`: overwrite in place when the key is
present, append otherwise. -/
def emInsert {α : Type} (m : List (String × α)) (k : String) (v : α) :
    List (String × α) :=
  if m.any (fun p => p.1 = k) then
    m.map (fun p => if p.1 = k then (k, v) else p)
  else m ++ [(k, v)]

/-- Go map read `m[k]` returning `none` for a missing key. -/
def emLookup {α : Type} (m : List (String × α)) (k : String) : Option α :=
  (m.find? (fun p => p.1 = k)).map Prod.snd

/-- The key set of a string-keyed Go map, in iteration order. -/
def emKeys {α : Type} (m : List (String × α)) : List String := m.map Prod.fst

/-- Struct `CachedURLs` in status.go; `lastUpdated` is the Go `time.Time`
as an integer count of nanoseconds. -/
structure CachedURLs where
  lastUpdated : Int
  pingURLs : PingURLs
deriving DecidableEq

/-- Struct `PingResponse` in status.go; `uptime` is a `float64` whose
value the command never inspects, modelled as a rational. -/
structure PingResponse where
  alive : Bool
  uptime : Rat
deriving DecidableEq

/-- Go `strings.SplitN(s, ".", 2)[0]` on the character list: the
characters before the first `'.'`, the whole list when there is none. -/
def splitNDotHead : List Char → List Char
  | [] => []
  | c :: cs => if c = '.' then [] else c :: splitNDotHead cs

/-- The service identifier computed in `ScrapePingURLs`:
`strings.SplitN(hostname, ".", 2)[0]`. -/
def serviceIdent (hostname : String) : String :=
  ⟨splitNDotHead hostname.data⟩

/-- The spec's wording for the identifier: the substring of the hostname
up to (not including) the first "." character, or the whole hostname when
it contains no ".". -/
def specIdent (hostname : String) : String :=
  ⟨hostname.data.takeWhile (fun c => c ≠ '.')⟩

theorem splitNDotHead_eq_takeWhile (l : List Char) :
    splitNDotHead l = l.takeWhile (fun c => c ≠ '.') := by
  induction l with
  | nil => rfl
  | cons c cs ih =>
    by_cases h : c = '.' <;> simp [splitNDotHead, List.takeWhile, h, ih]

theorem serviceIdent_eq_specIdent (h : String) : serviceIdent h = specIdent h := by
  simp [serviceIdent, specIdent, splitNDotHead_eq_takeWhile]

/-- JSON values, for the contents of the cache file.  Objects keep their
fields in emission order. -/
inductive Json where
  | null
  | bool (b : Bool)
  | num (n : Int)
  | str (s : String)
  | arr (xs : List Json)
  | obj (fields : List (String × Json))

/-- The file system visible to the status command: file contents (decoded,
at the JSON level) and the set of directories created so far. -/
structure FS where
  files : String → Option Json
  dirs : List String

/-- HTTP oracle standing for `objectFromJsonURL` and `url.Parse`: the
decoded manifest (its values, in Go's map-iteration order), the decoded
reference for each reference URL, and the hostname `url.Parse` plus
`(*URL).Hostname()` extracts from a base URL. -/
structure Fetcher where
  manifest : Except Err (List String)
  ref : String → Except Err API
  hostOf : String → Except Err String

/-- Sort an association list by key, as Go's `encoding/json` does when
marshalling a `map[string]string`. -/
def sortByKey (l : List (String × String)) : List (String × String) :=
  l.insertionSort (fun p q => p.1 ≤ q.1)

/-- JSON encoding of a `PingURLs` map: an object whose fields are the
entries sorted by key. -/
def encodePingURLs (p : PingURLs) : Json :=
  .obj ((sortByKey p).map (fun kv => (kv.1, .str kv.2)))

/-- JSON encoding of a `CachedURLs` record, with the struct fields in
declaration order as `json.MarshalIndent` emits them. -/
def encodeCachedURLs (c : CachedURLs) : Json :=
  .obj [("lastUpdated", .num c.lastUpdated), ("pingURLs", encodePingURLs c.pingURLs)]

/-- One field of a JSON object decoded into a `map[string]string` entry:
a string value is inserted with Go's later-field-overwrites semantics,
any other value is a decode error. -/
def decodePingStep (m : PingURLs) (kv : String × Json) : Except Err PingURLs :=
  match kv.2 with
  | .str v => .ok (emInsert m kv.1 v)
  | _ => .error .cacheRead

/-- Decoding a JSON value into a `map[string]string`, processing object
fields in order. -/
def decodePingURLs : Json → Except Err PingURLs
  | .obj fields => fields.foldlM decodePingStep []
  | _ => .error .cacheRead

/-- Decoding a JSON value into a `CachedURLs` record: unknown fields are
ignored, missing fields keep their zero value, and a type mismatch is a
decode error, following `json.Unmarshal`. -/
def decodeCachedURLs : Json → Except Err CachedURLs
  | .obj fields =>
    fields.foldlM
      (fun c kv =>
        if kv.1 = "lastUpdated" then
          match kv.2 with
          | .num n => .ok { c with lastUpdated := n }
          | _ => .error .cacheRead
        else if kv.1 = "pingURLs" then
          (decodePingURLs kv.2).map (fun p => { c with pingURLs := p })
        else .ok c)
      { lastUpdated := 0, pingURLs := [] }
  | _ => .error .cacheRead

/-- Function `CacheFilePath` in status.go:
`filepath.Join(home, ".taskcluster-cli", "cmds", "status", "cache.json")`. -/
def CacheFilePath (home : String) : String :=
  home ++ "/.taskcluster-cli/cmds/status/cache.json"

/-- Go `filepath.Dir`: the path with its final component dropped. -/
def dirChars : List Char → List Char
  | [] => []
  | c :: cs => if '/' ∈ cs then c :: dirChars cs else []

/-- Model of `filepath.Dir` on a path string. -/
def dirOf (p : String) : String :=
  ⟨dirChars p.data⟩

/-- Method `Expired` in status.go: `time.Since(cachedURLs.LastUpdated) > d`,
with `time.Since t = now - t`; `now` is passed explicitly. -/
def Expired (c : CachedURLs) (d : Int) (now : Int) : Bool :=
  now - c.lastUpdated > d

/-- Go `time.Hour * 24` in nanoseconds. -/
def hours24 : Int := 24 * 60 * 60 * 1000000000

/-- Go `time.Second` in nanoseconds. -/
def oneSecond : Int := 1000000000

/-- Function `ReadCachedURLsFile` in status.go: read the file at `path`
and unmarshal it; a missing file is a read error. -/
def ReadCachedURLsFile (path : String) (fs : FS) : Except Err CachedURLs :=
  match fs.files path with
  | none => .error .cacheRead
  | some j => decodeCachedURLs j

/-- Method `Cache` in status.go on `PingURLs`: create the parent directory
of `path`, stamp the current time, and write the marshalled record — to
the package-level `cacheFile` path (`CacheFilePath home`), not to `path`.
Returns the in-memory record and the new file-system state. -/
def Cache (home : String) (p : PingURLs) (path : String) (now : Int) (fs : FS) :
    CachedURLs × FS :=
  let fs1 : FS := { fs with dirs := dirOf path :: fs.dirs }
  let cached : CachedURLs := { lastUpdated := now, pingURLs := p }
  let fs2 : FS :=
    { fs1 with
      files := fun q => if q = CacheFilePath home then some (encodeCachedURLs cached) else fs1.files q }
  (cached, fs2)

/-- The body of the reference loop in `ScrapePingURLs` for one manifest
value `apiURL`: fetch the reference, find the first entry named "ping",
and on success insert `baseURL + route` under the identifier derived from
the base URL's hostname. -/
def scrapeStep (f : Fetcher) (m : PingURLs) (apiURL : String) : Except Err PingURLs :=
  match f.ref apiURL with
  | .error e => .error e
  | .ok reference =>
    match reference.entries.find? (fun e => e.name = "ping") with
    | none => .ok m
    | some entry =>
      match f.hostOf reference.baseURL with
      | .error e => .error e
      | .ok hostname =>
        .ok (emInsert m (serviceIdent hostname) (reference.baseURL ++ entry.route))

/-- Function `ScrapePingURLs` in status.go: fetch the manifest, then fold
the reference loop over its values, starting from the empty map. -/
def ScrapePingURLs (f : Fetcher) : Except Err PingURLs :=
  match f.manifest with
  | .error e => .error e
  | .ok apiURLs => apiURLs.foldlM (scrapeStep f) []

/-- Function `RefreshCache` in status.go: scrape, and on success cache the
result; on scrape failure nothing is written. -/
def RefreshCache (home : String) (f : Fetcher) (now : Int) (fs : FS) :
    Except Err PingURLs × FS :=
  match ScrapePingURLs f with
  | .error e => (.error e, fs)
  | .ok p =>
    let r := Cache home p (CacheFilePath home) now fs
    (.ok r.1.pingURLs, r.2)

/-- Function `NewPingURLs` in status.go: refresh when the cache file does
not exist, otherwise read it, propagating any read error, and refresh
only when the record is expired. -/
def NewPingURLs (home : String) (f : Fetcher) (now : Int) (fs : FS) :
    Except Err PingURLs × FS :=
  match fs.files (CacheFilePath home) with
  | none => RefreshCache home f now fs
  | some _ =>
    match ReadCachedURLsFile (CacheFilePath home) fs with
    | .error e => (.error e, fs)
    | .ok cachedURLs =>
      if Expired cachedURLs hours24 now then RefreshCache home f now fs
      else (.ok cachedURLs.pingURLs, fs)

/-- Function `validateArgs` in status.go: scan the arguments; an argument
matching no valid argument yields the fixed error. -/
def validateArgs (valid : List String) : List String → Except Err Unit
  | [] => .ok ()
  | arg :: rest =>
    if valid.contains arg then validateArgs valid rest
    else .error .invalidArgs

/-- Oracle for the health-endpoint fetch performed by `respbody`. -/
structure PollEnv where
  fetchPing : String → Except Err PingResponse

/-- Function `respbody` in status.go: fetch `pingURLs[service]` (a missing
key reads as the empty string), and when the response is alive print the
service line and the "Alive" line; an `alive == false` response prints
nothing and is not an error.  Returns the printed lines and the list of
URLs fetched. -/
def respbody (env : PollEnv) (purls : PingURLs) (service : String) :
    Except Err (List String) × List String :=
  let url := (emLookup purls service).getD ""
  match env.fetchPing url with
  | .error e => (.error e, [url])
  | .ok servstat =>
    if servstat.alive then (.ok ["      " ++ service, "      Alive"], [url])
    else (.ok [], [url])

/-- The loop in function `status` in status.go: poll each requested
service in order, stopping at the first error (the Go code panics there),
accumulating printed lines and fetched URLs. -/
def statusLoop (env : PollEnv) (purls : PingURLs) :
    List String → Except Err (List String) × List String
  | [] => (.ok [], [])
  | service :: rest =>
    match respbody env purls service with
    | (.error e, calls) => (.error e, calls)
    | (.ok out, calls) =>
      match statusLoop env purls rest with
      | (.error e, calls') => (.error e, calls ++ calls')
      | (.ok out', calls') => (.ok (out ++ out'), calls ++ calls')

/-- Function `status` in status.go: an empty argument list defaults to the
full valid-argument list. -/
def statusRun (env : PollEnv) (purls : PingURLs) (valid args : List String) :
    Except Err (List String) × List String :=
  statusLoop env purls (if args.isEmpty then valid else args)

/-- The cobra command wiring of status.go: `PreRunE` (`preRun`, which
calls `validateArgs`) runs before `RunE` (`status`); when it fails, the
run function is never invoked, so no fetch happens. -/
def runStatusCommand (env : PollEnv) (purls : PingURLs) (valid args : List String) :
    Except Err (List String) × List String :=
  match validateArgs valid args with
  | .error e => (.error e, [])
  | .ok _ => statusRun env purls valid args

end TCStatus

namespace TCApis

open TCStatus (emInsert emLookup emKeys)

/-- Modelled from the spec: the entry struct of the missing
`apis/definitions` package.  The spec's reference documents carry
`entries: [{name, route, ...}]`, and the generator reads `e.Input` and
`e.Output` as schema URLs (empty when absent). -/
structure Entry where
  name : String
  route : String
  input : String
  output : String
deriving DecidableEq

/-- Modelled from the spec: the `definitions.Service` struct of the
missing `apis/definitions` package, a parsed reference document with a
base URL and its entries. -/
structure Service where
  baseURL : String
  entries : List Entry
deriving DecidableEq

/-- The generator's schema-scheduling state: `urls` is the Go
`map[string]bool` of already-scheduled URLs (as the list of keys set to
true), `fetched` records, in launch order, each schema-fetch goroutine
started. -/
structure CollectState where
  urls : List String
  fetched : List String
deriving DecidableEq

/-- The `addSchema` closure in `GenerateServices`: skip the empty URL and
any already-scheduled URL, otherwise mark it scheduled and launch exactly
one fetch for it. -/
def addSchema (st : CollectState) (url : String) : CollectState :=
  if url = "" ∨ st.urls.contains url then st
  else { urls := st.urls ++ [url], fetched := st.fetched ++ [url] }

/-- The schema-collection loops of `GenerateServices`: for each service,
for each entry, `addSchema e.Input; addSchema e.Output`. -/
def collectSchemas (services : List (String × Service)) : CollectState :=
  services.foldl
    (fun st sv =>
      sv.2.entries.foldl (fun st e => addSchema (addSchema st e.input) e.output) st)
    { urls := [], fetched := [] }

/-- All schema URLs referenced by the services, inputs and outputs, in
the traversal order of `collectSchemas`. -/
def schemaURLs (services : List (String × Service)) : List String :=
  (services.map (fun sv => (sv.2.entries.map (fun e => [e.input, e.output])).flatten)).flatten

/-- Go `%#v` rendering of one character of a string literal (the escapes
`strconv.Quote` applies to the characters that occur here). -/
def goEscapeChar (c : Char) : String :=
  if c = '"' then "\\\""
  else if c = '\\' then "\\\\"
  else if c = '\n' then "\\n"
  else if c = '\t' then "\\t"
  else String.singleton c

/-- Go `%#v` rendering of a string: a double-quoted literal. -/
def goQuote (s : String) : String :=
  "\"" ++ String.join (s.data.map goEscapeChar) ++ "\""

/-- Go `sort.Strings`: ascending lexicographic sort. -/
def sortStrings (l : List String) : List String :=
  l.insertionSort (fun a b => a ≤ b)

/-- The `PrettyPrint` case for `map[string]string` (the schemas map):
print the type, then each key-value pair with the keys sorted, or close
immediately when the map is empty. -/
def ppSchemasMap (m : List (String × String)) : String :=
  "map[string]string\x7b\n" ++
    (if m.isEmpty then "\x7d"
     else
       String.join
         ((sortStrings (emKeys m)).map
           (fun k => goQuote k ++ ": " ++ goQuote ((emLookup m k).getD "") ++ ",\n")) ++
         "\x7d")

/-- The `PrettyPrint` case for one `definitions.Entry` value: the struct
fields in declaration order. -/
def ppEntry (e : Entry) : String :=
  "definitions.Entry\x7b\n" ++
    "Name: " ++ goQuote e.name ++ ",\n" ++
    "Route: " ++ goQuote e.route ++ ",\n" ++
    "Input: " ++ goQuote e.input ++ ",\n" ++
    "Output: " ++ goQuote e.output ++ ",\n" ++ "\x7d"

/-- The `PrettyPrint` case for the `[]definitions.Entry` slice. -/
def ppEntries (l : List Entry) : String :=
  "[]definitions.Entry\x7b\n" ++
    String.join (l.map (fun e => ppEntry e ++ ",\n")) ++ "\x7d"

/-- The `PrettyPrint` case for one `definitions.Service` value. -/
def ppService (s : Service) : String :=
  "definitions.Service\x7b\n" ++
    "BaseURL: " ++ goQuote s.baseURL ++ ",\n" ++
    "Entries: " ++ ppEntries s.entries ++ ",\n" ++ "\x7d"

/-- The `PrettyPrint` case for `map[string]definitions.Service` (the
services map): keys sorted, values printed recursively. -/
def ppServicesMap (m : List (String × Service)) : String :=
  "map[string]definitions.Service\x7b\n" ++
    (if m.isEmpty then "\x7d"
     else
       String.join
         ((sortStrings (emKeys m)).map
           (fun k =>
             goQuote k ++ ": " ++ ppService ((emLookup m k).getD { baseURL := "", entries := [] }) ++ ",\n")) ++
         "\x7d")

end TCApis

namespace TCStatus

/-- Whether a reference's entries contain an entry named "ping"
(case-sensitive), the spec's inclusion condition. -/
def hasPingB (r : API) : Bool :=
  r.entries.any (fun e => e.name = "ping")

/-- The health URL the spec assigns to a reference: `baseURL + route` of
the first entry named "ping" (empty when there is none). -/
def pingURLOf (r : API) : String :=
  match r.entries.find? (fun e => e.name = "ping") with
  | some entry => r.baseURL ++ entry.route
  | none => ""

/-- The pure content of one `ScrapePingURLs` loop iteration, once the
reference for `u` is `refs u` and hostname extraction is `host`. -/
def scrapePureStep (host : String → String) (refs : String → API)
    (m : PingURLs) (u : String) : PingURLs :=
  match (refs u).entries.find? (fun e => e.name = "ping") with
  | none => m
  | some entry =>
    emInsert m (serviceIdent (host (refs u).baseURL)) ((refs u).baseURL ++ entry.route)

/-- The pure content of the `ScrapePingURLs` reference loop. -/
def scrapePure (host : String → String) (refs : String → API)
    (urls : List String) (m0 : PingURLs) : PingURLs :=
  urls.foldl (scrapePureStep host refs) m0

/-- One step of the last-writer computation for key `k`: a reference with
a ping entry whose identifier is `k` overwrites the accumulator. -/
def lastPingStep (host : String → String) (refs : String → API) (k : String)
    (acc : Option String) (u : String) : Option String :=
  match (refs u).entries.find? (fun e => e.name = "ping") with
  | none => acc
  | some entry =>
    if serviceIdent (host (refs u).baseURL) = k then some ((refs u).baseURL ++ entry.route)
    else acc

/-- The value the scrape loop leaves at key `k`: the last reference in
iteration order with a ping entry and identifier `k`. -/
def lastPingVal (host : String → String) (refs : String → API)
    (urls : List String) (k : String) : Option String :=
  urls.foldl (lastPingStep host refs k) none

/-- The first option when present, the second otherwise. -/
def orDefault (x acc : Option String) : Option String :=
  match x with
  | some v => some v
  | none => acc

theorem emLookup_cons {α : Type} (p : String × α) (m : List (String × α)) (k : String) :
    emLookup (p :: m) k = if p.1 = k then some p.2 else emLookup m k := by
  by_cases h : p.1 = k
  · simp [emLookup, List.find?_cons_of_pos, h]
  · simp [emLookup, List.find?_cons_of_neg, h]

theorem emLookup_map_replace {α : Type} (m : List (String × α)) (k k' : String) (v : α) :
    emLookup (m.map (fun p => if p.1 = k then (k, v) else p)) k' =
      if k' = k then (if m.any (fun p => p.1 = k) then some v else none)
      else emLookup m k' := by
  induction m with
  | nil => by_cases h : k' = k <;> simp [emLookup, h]
  | cons p m ih =>
    by_cases hp : p.1 = k
    · rw [List.map_cons, if_pos hp]
      by_cases hk : k' = k
      · subst hk
        rw [emLookup_cons, if_pos rfl]
        simp [List.any_cons, hp]
      · rw [emLookup_cons, if_neg (fun h : (k, v).1 = k' => hk h.symm), ih, if_neg hk,
          emLookup_cons, if_neg (fun h : p.1 = k' => hk ((hp.symm.trans h).symm)), if_neg hk]
    · rw [List.map_cons, if_neg hp, emLookup_cons, emLookup_cons, ih]
      by_cases hpk : p.1 = k'
      · have hk : ¬ k' = k := fun h => hp (hpk.trans h)
        simp [hpk, hk]
      · rw [if_neg hpk, if_neg hpk]
        by_cases hk : k' = k
        · subst hk
          have hd : (decide (p.1 = k') : Bool) = false := by simp [hp]
          simp only [List.any_cons, hd, Bool.false_or]
        · simp [hk]

theorem emLookup_append_absent {α : Type} (m : List (String × α)) (k k' : String) (v : α)
    (h : m.any (fun p => p.1 = k) = false) :
    emLookup (m ++ [(k, v)]) k' = if k' = k then some v else emLookup m k' := by
  induction m with
  | nil =>
    by_cases hk : k' = k
    · simp [emLookup_cons, hk, emLookup]
    · simp [emLookup_cons, Ne.symm hk, emLookup, hk]
  | cons p m ih =>
    simp only [List.any_cons, Bool.or_eq_false_iff] at h
    rw [List.cons_append, emLookup_cons, emLookup_cons, ih h.2]
    by_cases hpk : p.1 = k'
    · have : ¬ k' = k := by
        intro hk
        rw [hk] at hpk
        simp [hpk] at h
      simp [hpk, this]
    · simp [hpk]

theorem emLookup_emInsert {α : Type} (m : List (String × α)) (k k' : String) (v : α) :
    emLookup (emInsert m k v) k' = if k' = k then some v else emLookup m k' := by
  unfold emInsert
  by_cases h : m.any (fun p => p.1 = k)
  · rw [if_pos h, emLookup_map_replace, h]
    simp
  · rw [if_neg h, emLookup_append_absent m k k' v (Bool.eq_false_iff.mpr h)]

theorem emKeys_map_replace {α : Type} (m : List (String × α)) (k : String) (v : α) :
    emKeys (m.map (fun p => if p.1 = k then (k, v) else p)) = emKeys m := by
  induction m with
  | nil => rfl
  | cons p m ih =>
    by_cases hp : p.1 = k <;> simp [emKeys, hp] <;> simpa [emKeys] using ih

theorem mem_emKeys_of_any {α : Type} (m : List (String × α)) (k : String)
    (h : m.any (fun p => p.1 = k) = true) : k ∈ emKeys m := by
  rcases List.any_eq_true.mp h with ⟨p, hp, he⟩
  simp only [decide_eq_true_eq] at he
  exact he ▸ List.mem_map_of_mem Prod.fst hp

theorem any_eq_false_iff_not_mem_emKeys {α : Type} (m : List (String × α)) (k : String) :
    m.any (fun p => p.1 = k) = false ↔ k ∉ emKeys m := by
  rw [← Bool.not_eq_true, List.any_eq_true]
  constructor
  · rintro h hk
    rcases List.mem_map.mp hk with ⟨p, hp, he⟩
    exact h ⟨p, hp, by simp [he]⟩
  · rintro h ⟨p, hp, he⟩
    simp only [decide_eq_true_eq] at he
    exact h (he ▸ List.mem_map_of_mem Prod.fst hp)

theorem mem_emKeys_emInsert {α : Type} (m : List (String × α)) (k k' : String) (v : α) :
    k' ∈ emKeys (emInsert m k v) ↔ k' ∈ emKeys m ∨ k' = k := by
  unfold emInsert
  by_cases h : m.any (fun p => p.1 = k)
  · rw [if_pos h, emKeys_map_replace]
    constructor
    · exact Or.inl
    · rintro (hm | rfl)
      · exact hm
      · exact mem_emKeys_of_any m k' h
  · rw [if_neg h]
    simp [emKeys]

theorem emKeys_emInsert_nodup {α : Type} (m : List (String × α)) (k : String) (v : α)
    (h : (emKeys m).Nodup) : (emKeys (emInsert m k v)).Nodup := by
  unfold emInsert
  by_cases hm : m.any (fun p => p.1 = k)
  · rw [if_pos hm, emKeys_map_replace]
    exact h
  · rw [if_neg hm]
    have hk : k ∉ emKeys m := (any_eq_false_iff_not_mem_emKeys m k).mp (Bool.eq_false_iff.mpr hm)
    have hkeys : emKeys (m ++ [(k, v)]) = emKeys m ++ [k] := by simp [emKeys]
    rw [hkeys]
    exact List.Nodup.append h (List.nodup_singleton k)
      (fun x hx hx' => by
        rw [List.mem_singleton] at hx'
        exact hk (hx' ▸ hx))

theorem emLookup_eq_of_perm {α : Type} {l1 l2 : List (String × α)} (h : l1.Perm l2)
    (nd : (emKeys l1).Nodup) (k : String) : emLookup l1 k = emLookup l2 k := by
  induction h with
  | nil => rfl
  | cons x h ih =>
    rw [emLookup_cons, emLookup_cons]
    simp only [emKeys, List.map_cons, List.nodup_cons] at nd
    rw [ih nd.2]
  | swap x y l =>
    have hxy : y.1 ≠ x.1 := by
      intro h
      simp [emKeys, h] at nd
    rw [emLookup_cons, emLookup_cons, emLookup_cons, emLookup_cons]
    by_cases hy : y.1 = k
    · have hx : ¬ x.1 = k := fun h => hxy (hy.trans h.symm)
      simp [hx, hy]
    · by_cases hx : x.1 = k <;> simp [hx, hy]
  | trans h1 h2 ih1 ih2 =>
    have nd2 : (emKeys _).Nodup := ((h1.map Prod.fst).nodup_iff).mp nd
    exact (ih1 nd).trans (ih2 nd2)

theorem foldl_emInsert_append {α : Type} (l : List (String × α)) (m0 : List (String × α))
    (hdisj : ∀ p ∈ l, p.1 ∉ emKeys m0) (hnd : (emKeys l).Nodup) :
    l.foldl (fun m kv => emInsert m kv.1 kv.2) m0 = m0 ++ l := by
  induction l generalizing m0 with
  | nil => simp
  | cons kv l ih =>
    have hk0 : kv.1 ∉ emKeys m0 := hdisj kv (List.mem_cons_self kv l)
    have habs : m0.any (fun p => p.1 = kv.1) = false :=
      (any_eq_false_iff_not_mem_emKeys m0 kv.1).mpr hk0
    have hstep : emInsert m0 kv.1 kv.2 = m0 ++ [(kv.1, kv.2)] := by
      unfold emInsert
      rw [habs]
      simp
    have hnd2 : (emKeys l).Nodup := by
      simp only [emKeys, List.map_cons, List.nodup_cons] at hnd
      exact hnd.2
    have hkl : kv.1 ∉ emKeys l := by
      simp only [emKeys, List.map_cons, List.nodup_cons] at hnd
      exact hnd.1
    have hdisj2 : ∀ p ∈ l, p.1 ∉ emKeys (m0 ++ [(kv.1, kv.2)]) := by
      intro p hp
      simp only [emKeys, List.map_append, List.mem_append, List.map_cons, List.map_nil,
        List.mem_singleton]
      rintro (hm | he)
      · exact hdisj p (List.mem_cons_of_mem kv hp) hm
      · exact hkl (he ▸ List.mem_map_of_mem Prod.fst hp)
    rw [List.foldl_cons, hstep, ih (m0 ++ [(kv.1, kv.2)]) hdisj2 hnd2]
    simp

/-- An empty file system, for concrete witnesses. -/
def fs0 : FS := { files := fun _ => none, dirs := [] }

/-- A file system whose cache file for home directory "/home/u" holds a
JSON string instead of an object, so the cache read parses but fails to
decode. -/
def badFS : FS :=
  { files := fun q => if q = CacheFilePath "/home/u" then some (.str "corrupt") else none,
    dirs := [] }

/-- A reference document for a queue service with a ping entry, for
concrete witnesses. -/
def queueAPI : API :=
  { baseURL := "https://queue.example.com",
    entries := [{ name := "ping", route := "/ping" }] }

/-- A constant reference assignment, for concrete witnesses. -/
def constRefs : String → API := fun _ => queueAPI

/-- A constant hostname extraction, for concrete witnesses. -/
def constHost : String → String := fun _ => "queue.example.com"

/-- A fetcher whose manifest names one reference that carries a ping
entry, for concrete witnesses. -/
def okFetcher : Fetcher :=
  { manifest := .ok ["https://refs.example/queue.json"],
    ref := fun _ => .ok queueAPI,
    hostOf := fun _ => .ok "queue.example.com" }

/-- A fetcher whose manifest fetch fails with a transport error. -/
def failManifestFetcher : Fetcher :=
  { manifest := .error .network,
    ref := fun _ => .error .network,
    hostOf := fun _ => .error .urlParse }

/-- A fetcher whose manifest succeeds but whose only reference fetch
fails with a 500 status. -/
def failRefFetcher : Fetcher :=
  { manifest := .ok ["https://refs.example/queue.json"],
    ref := fun _ => .error (.badStatus 500),
    hostOf := fun _ => .ok "" }

/-- A poll oracle that always fails, for witnesses that must make no
network call. -/
def pollEnv0 : PollEnv := { fetchPing := fun _ => .error .network }

/-- A poll oracle whose health endpoint answers alive with uptime 12.5. -/
def aliveEnv : PollEnv :=
  { fetchPing := fun _ => .ok { alive := true, uptime := 12.5 } }

/-- A poll oracle whose health endpoint answers not alive with uptime 0. -/
def deadEnv : PollEnv :=
  { fetchPing := fun _ => .ok { alive := false, uptime := 0 } }

/-- C3, counterexample: with `lastUpdated` exactly 24 hours in the past,
`Expired` returns false, because the code's comparison
`time.Since(lastUpdated) > d` is strict; the claim says it returns
true there. -/
theorem expired_exact_24h_counterexample :
    Expired { lastUpdated := 0, pingURLs := [] } hours24 hours24 = false := by
  decide

/-- C3, amended: `Expired(r, 24h)` returns false when the current time
minus `r.LastUpdated` is exactly 24 hours (it is true only when the
difference strictly exceeds 24 hours), and returns false when the
difference is 24 hours minus one second. -/
theorem expired_boundary (last now : Int) (p : PingURLs) :
    (now - last = hours24 →
      Expired { lastUpdated := last, pingURLs := p } hours24 now = false) ∧
    (now - last = hours24 - oneSecond →
      Expired { lastUpdated := last, pingURLs := p } hours24 now = false) ∧
    (hours24 < now - last →
      Expired { lastUpdated := last, pingURLs := p } hours24 now = true) := by
  refine ⟨fun h => ?_, fun h => ?_, fun h => ?_⟩
  · simp only [Expired]
    rw [h]
    decide
  · simp only [Expired]
    rw [h]
    decide
  · exact decide_eq_true h

/-- C3, witness: the boundary theorem evaluated at concrete times. -/
theorem expired_boundary_witness :
    Expired { lastUpdated := 0, pingURLs := [] } hours24 (hours24 - oneSecond) = false ∧
    Expired { lastUpdated := 0, pingURLs := [] } hours24 (hours24 + 1) = true :=
  ⟨(expired_boundary 0 (hours24 - oneSecond) []).2.1 (by decide),
   (expired_boundary 0 (hours24 + 1) []).2.2 (by decide)⟩

/-- C10: `Cache` records the parent directory of its `path` argument as
created, but writes the serialized record to the package-level cache
file path; every other path, `path` itself included when it differs, is
untouched. -/
theorem cache_writes_fixed_path (home : String) (E : PingURLs) (path : String)
    (now : Int) (fs : FS) :
    (Cache home E path now fs).2.files (CacheFilePath home) =
        some (encodeCachedURLs { lastUpdated := now, pingURLs := E }) ∧
    (∀ q, q ≠ CacheFilePath home → (Cache home E path now fs).2.files q = fs.files q) ∧
    dirOf path ∈ (Cache home E path now fs).2.dirs ∧
    (Cache home E path now fs).1 = { lastUpdated := now, pingURLs := E } := by
  refine ⟨?_, ?_, ?_, rfl⟩
  · simp [Cache]
  · intro q hq
    simp [Cache, hq]
  · simp [Cache]

/-- C10, witness: caching with a path different from the cache file
leaves that path absent while its parent directory is created. -/
theorem cache_writes_fixed_path_witness :
    (Cache "/h" [] "/tmp/other" 0 fs0).2.files "/tmp/other" = none ∧
    dirOf "/tmp/other" ∈ (Cache "/h" [] "/tmp/other" 0 fs0).2.dirs := by
  constructor
  · have h := (cache_writes_fixed_path "/h" [] "/tmp/other" 0 fs0).2.1 "/tmp/other" (by decide)
    rw [h]
    rfl
  · exact (cache_writes_fixed_path "/h" [] "/tmp/other" 0 fs0).2.2.1

theorem validateArgs_mem_error (valid : List String) :
    ∀ (args : List String) (a : String), a ∈ args → a ∉ valid →
      validateArgs valid args = .error .invalidArgs := by
  intro args
  induction args with
  | nil =>
    intro a ha
    cases ha
  | cons b rest ih =>
    intro a ha hnot
    unfold validateArgs
    by_cases hb : valid.contains b
    · rw [if_pos hb]
      rcases List.mem_cons.mp ha with rfl | hmem
      · exact absurd (by simpa using hb) hnot
      · exact ih a hmem hnot
    · rw [if_neg hb]

/-- C8: an argument list containing an identifier outside the valid set
is rejected by `validateArgs`, and the command run aborts before the run
function executes: the result is the validation error and the list of
health-endpoint fetches is empty. -/
theorem validateArgs_rejects_unknown (env : PollEnv) (purls : PingURLs)
    (valid args : List String) (a : String) (ha : a ∈ args) (hnot : a ∉ valid) :
    validateArgs valid args = .error .invalidArgs ∧
    runStatusCommand env purls valid args = (.error .invalidArgs, []) := by
  have h := validateArgs_mem_error valid args a ha hnot
  refine ⟨h, ?_⟩
  unfold runStatusCommand
  rw [h]

/-- C8, witness: polling a bogus identifier fails fast with zero fetch
invocations. -/
theorem validateArgs_rejects_unknown_witness :
    validateArgs ["queue", "auth"] ["queue", "bogus"] = .error .invalidArgs ∧
    runStatusCommand pollEnv0 [] ["queue", "auth"] ["queue", "bogus"] =
      (.error .invalidArgs, []) :=
  validateArgs_rejects_unknown pollEnv0 [] ["queue", "auth"] ["queue", "bogus"] "bogus"
    (by decide) (by decide)

/-- C9: when the health endpoint of a polled service answers with a
well-formed `PingResponse`, `respbody` prints the service and "Alive"
lines exactly when `alive` is true, and on `alive == false` it prints
nothing and returns no error. -/
theorem respbody_alive_reporting (env : PollEnv) (purls : PingURLs) (service : String)
    (st : PingResponse)
    (h : env.fetchPing ((emLookup purls service).getD "") = .ok st) :
    (st.alive = true →
      respbody env purls service =
        (.ok ["      " ++ service, "      Alive"], [(emLookup purls service).getD ""])) ∧
    (st.alive = false →
      respbody env purls service = (.ok [], [(emLookup purls service).getD ""])) := by
  constructor <;> intro ha <;> simp [respbody, h, ha]

/-- C9, witness: an alive response for "queue" is reported, a dead
response is silently dropped and is not an error. -/
theorem respbody_alive_reporting_witness :
    respbody aliveEnv [("queue", "https://queue.example.com/ping")] "queue" =
      (.ok ["      queue", "      Alive"], ["https://queue.example.com/ping"]) ∧
    respbody deadEnv [("queue", "https://queue.example.com/ping")] "queue" =
      (.ok [], ["https://queue.example.com/ping"]) :=
  ⟨(respbody_alive_reporting aliveEnv [("queue", "https://queue.example.com/ping")] "queue"
      { alive := true, uptime := 12.5 } rfl).1 rfl,
   (respbody_alive_reporting deadEnv [("queue", "https://queue.example.com/ping")] "queue"
      { alive := false, uptime := 0 } rfl).2 rfl⟩

theorem foldlM_scrapeStep_error (f : Fetcher) :
    ∀ (urls : List String) (m0 : PingURLs) (u : String) (e : Err),
      u ∈ urls → f.ref u = .error e →
      ∃ e', urls.foldlM (scrapeStep f) m0 = .error e' := by
  intro urls
  induction urls with
  | nil =>
    intro m0 u e hu
    cases hu
  | cons v rest ih =>
    intro m0 u e hu href
    rw [List.foldlM_cons]
    cases hstep : scrapeStep f m0 v with
    | error e2 =>
      exact ⟨e2, rfl⟩
    | ok m1 =>
      rcases List.mem_cons.mp hu with rfl | hmem
      · exfalso
        unfold scrapeStep at hstep
        rw [href] at hstep
        cases hstep
      · rcases ih m1 u e hmem href with ⟨e', he'⟩
        exact ⟨e', he'⟩

/-- C6: when the manifest fetch fails, or any reference fetch fails, the
whole scrape fails, the error propagates out of `RefreshCache`, and the
file system is returned unchanged — no cache file is written. -/
theorem fetch_failure_aborts_refresh (home : String) (f : Fetcher) (now : Int) (fs : FS) :
    (∀ e, f.manifest = .error e →
       ScrapePingURLs f = .error e ∧ RefreshCache home f now fs = (.error e, fs)) ∧
    (∀ urls u e, f.manifest = .ok urls → u ∈ urls → f.ref u = .error e →
       ∃ e', ScrapePingURLs f = .error e' ∧
         RefreshCache home f now fs = (.error e', fs)) := by
  constructor
  · intro e hm
    have hs : ScrapePingURLs f = .error e := by
      unfold ScrapePingURLs
      rw [hm]
    exact ⟨hs, by unfold RefreshCache; rw [hs]⟩
  · intro urls u e hm hu href
    rcases foldlM_scrapeStep_error f urls [] u e hu href with ⟨e', he'⟩
    have hs : ScrapePingURLs f = .error e' := by
      unfold ScrapePingURLs
      rw [hm]
      exact he'
    exact ⟨e', hs, by unfold RefreshCache; rw [hs]⟩

/-- C6, witness: a failing manifest fetch and a failing reference fetch
each abort the refresh with the file system untouched. -/
theorem fetch_failure_aborts_refresh_witness :
    RefreshCache "/h" failManifestFetcher 0 fs0 = (.error .network, fs0) ∧
    (∃ e', RefreshCache "/h" failRefFetcher 0 fs0 = (.error e', fs0)) := by
  constructor
  · exact ((fetch_failure_aborts_refresh "/h" failManifestFetcher 0 fs0).1 .network rfl).2
  · rcases (fetch_failure_aborts_refresh "/h" failRefFetcher 0 fs0).2
      ["https://refs.example/queue.json"] "https://refs.example/queue.json"
      (.badStatus 500) rfl (List.mem_singleton.mpr rfl) rfl with ⟨e', _, h2⟩
    exact ⟨e', h2⟩

/-- C7, counterexample: with a cache file present but holding a JSON
string instead of a record, `NewPingURLs` returns the cache-read error
and does not return the freshly scraped map, although the fetcher would
scrape successfully; the claim says a corrupt cache triggers a full
refresh. -/
theorem corrupt_cache_counterexample :
    NewPingURLs "/home/u" okFetcher 0 badFS = (.error .cacheRead, badFS) ∧
    ScrapePingURLs okFetcher = .ok [("queue", "https://queue.example.com/ping")] ∧
    (NewPingURLs "/home/u" okFetcher 0 badFS).1 ≠
      .ok [("queue", "https://queue.example.com/ping")] := by
  refine ⟨rfl, rfl, ?_⟩
  intro h
  rw [show (NewPingURLs "/home/u" okFetcher 0 badFS).1 = .error .cacheRead from rfl] at h
  cases h

/-- C7, amended: when the cache file exists but its contents fail to
decode, `NewPingURLs` surfaces the cache-read error to the caller and
performs no refresh: the file system is unchanged and no scrape result
is returned. -/
theorem corrupt_cache_error_surfaces (home : String) (f : Fetcher) (now : Int) (fs : FS)
    (j : Json) (e : Err) (hfile : fs.files (CacheFilePath home) = some j)
    (hbad : decodeCachedURLs j = .error e) :
    NewPingURLs home f now fs = (.error e, fs) := by
  simp [NewPingURLs, ReadCachedURLsFile, hfile, hbad]

/-- C7, witness: the amended behavior evaluated on the corrupt concrete
file system. -/
theorem corrupt_cache_error_surfaces_witness :
    NewPingURLs "/home/u" okFetcher 0 badFS = (.error .cacheRead, badFS) :=
  corrupt_cache_error_surfaces "/home/u" okFetcher 0 badFS (.str "corrupt") .cacheRead rfl rfl

end TCStatus

namespace TCApis

open TCStatus (emInsert emLookup emKeys)

theorem foldl_addSchema_invariant :
    ∀ (l : List String) (st : CollectState),
      st.urls = st.fetched → st.fetched.Nodup → "" ∉ st.fetched →
      ((l.foldl addSchema st).urls = (l.foldl addSchema st).fetched ∧
       (l.foldl addSchema st).fetched.Nodup ∧
       "" ∉ (l.foldl addSchema st).fetched ∧
       (∀ u, u ∈ (l.foldl addSchema st).fetched ↔
         u ∈ st.fetched ∨ (u ≠ "" ∧ u ∈ l))) := by
  intro l
  induction l with
  | nil =>
    intro st h1 h2 h3
    exact ⟨h1, h2, h3, fun u => by simp⟩
  | cons x rest ih =>
    intro st h1 h2 h3
    rw [List.foldl_cons]
    by_cases hx : x = "" ∨ st.urls.contains x
    · have hst : addSchema st x = st := by
        unfold addSchema
        rw [if_pos hx]
      rw [hst]
      rcases ih st h1 h2 h3 with ⟨g1, g2, g3, g4⟩
      refine ⟨g1, g2, g3, fun u => ?_⟩
      rw [g4 u]
      constructor
      · rintro (hm | hr)
        · exact Or.inl hm
        · exact Or.inr ⟨hr.1, List.mem_cons_of_mem x hr.2⟩
      · rintro (hm | ⟨hne, hmem⟩)
        · exact Or.inl hm
        · rcases List.mem_cons.mp hmem with rfl | hr
          · rcases hx with he | hc
            · exact absurd he hne
            · exact Or.inl (h1 ▸ (by simpa using hc))
          · exact Or.inr ⟨hne, hr⟩
    · have hst : addSchema st x =
          { urls := st.urls ++ [x], fetched := st.fetched ++ [x] } := by
        unfold addSchema
        rw [if_neg hx]
      push_neg at hx
      obtain ⟨hne, hc⟩ := hx
      have hxmem : x ∉ st.fetched := by
        intro hm
        exact hc (by rw [h1]; simpa using hm)
      have hnd2 : (st.fetched ++ [x]).Nodup := by
        refine List.Nodup.append h2 (List.nodup_singleton x) ?_
        intro a ha ha2
        rw [List.mem_singleton] at ha2
        exact hxmem (ha2 ▸ ha)
      have h3n : "" ∉ st.fetched ++ [x] := by
        rw [List.mem_append, List.mem_singleton]
        rintro (hm | he)
        · exact h3 hm
        · exact hne he.symm
      rw [hst]
      rcases ih { urls := st.urls ++ [x], fetched := st.fetched ++ [x] }
        (by simp [h1]) hnd2 h3n with ⟨g1, g2, g3, g4⟩
      refine ⟨g1, g2, g3, fun u => ?_⟩
      rw [g4 u]
      simp only [List.mem_append, List.mem_cons, List.not_mem_nil, or_false]
      constructor
      · rintro ((hm | rfl) | hr)
        · exact Or.inl hm
        · exact Or.inr ⟨hne, Or.inl rfl⟩
        · exact Or.inr ⟨hr.1, Or.inr hr.2⟩
      · rintro (hm | ⟨hne2, rfl | hr⟩)
        · exact Or.inl (Or.inl hm)
        · exact Or.inl (Or.inr rfl)
        · exact Or.inr ⟨hne2, hr⟩

theorem entries_foldl_addSchema (entries : List Entry) (st : CollectState) :
    entries.foldl (fun st e => addSchema (addSchema st e.input) e.output) st =
      ((entries.map (fun e => [e.input, e.output])).flatten).foldl addSchema st := by
  induction entries generalizing st with
  | nil => rfl
  | cons e es ih =>
    rw [List.foldl_cons, List.map_cons, List.flatten_cons, List.foldl_append]
    exact ih (addSchema (addSchema st e.input) e.output)

theorem collectSchemas_eq_foldl (services : List (String × Service)) :
    collectSchemas services =
      (schemaURLs services).foldl addSchema { urls := [], fetched := [] } := by
  unfold collectSchemas schemaURLs
  generalize ({ urls := [], fetched := [] } : CollectState) = st
  induction services generalizing st with
  | nil => rfl
  | cons sv rest ih =>
    rw [List.foldl_cons, List.map_cons, List.flatten_cons, List.foldl_append,
      entries_foldl_addSchema]
    exact ih _

/-- C4: over all service entries, the schema collector launches exactly
one fetch for each distinct non-empty URL among the inputs and outputs,
and none for the empty URL: the launched-fetch list is duplicate-free
and contains exactly the non-empty referenced URLs. -/
theorem collectSchemas_dedup (services : List (String × Service)) :
    (∀ u, (collectSchemas services).fetched.count u =
       if u ≠ "" ∧ u ∈ schemaURLs services then 1 else 0) ∧
    (collectSchemas services).fetched.Nodup := by
  rcases foldl_addSchema_invariant (schemaURLs services)
      { urls := [], fetched := [] } rfl List.nodup_nil (by simp)
    with ⟨_, g2, _, g4⟩
  rw [collectSchemas_eq_foldl]
  refine ⟨fun u => ?_, g2⟩
  by_cases hmem : u ≠ "" ∧ u ∈ schemaURLs services
  · rw [if_pos hmem]
    exact List.count_eq_one_of_mem g2 ((g4 u).mpr (Or.inr hmem))
  · rw [if_neg hmem]
    rw [List.count_eq_zero]
    intro hin
    rcases (g4 u).mp hin with hm | hr
    · simp at hm
    · exact hmem hr

theorem sortStrings_eq_of_perm {l1 l2 : List String} (h : l1.Perm l2) :
    sortStrings l1 = sortStrings l2 := by
  apply List.eq_of_perm_of_sorted
    (((List.perm_insertionSort _ l1).trans h).trans (List.perm_insertionSort _ l2).symm)
    (List.sorted_insertionSort _ l1) (List.sorted_insertionSort _ l2)

theorem isEmpty_eq_of_perm {α : Type} {l1 l2 : List α} (h : l1.Perm l2) :
    l1.isEmpty = l2.isEmpty := by
  have hl := h.length_eq
  cases l1 <;> cases l2 <;> simp_all

theorem ppSchemasMap_eq_of_perm {m1 m2 : List (String × String)} (h : m1.Perm m2)
    (nd : (emKeys m1).Nodup) : ppSchemasMap m1 = ppSchemasMap m2 := by
  unfold ppSchemasMap
  have hk : sortStrings (emKeys m1) = sortStrings (emKeys m2) :=
    sortStrings_eq_of_perm (h.map Prod.fst)
  have hemp : m1.isEmpty = m2.isEmpty := isEmpty_eq_of_perm h
  have hf : (fun k => goQuote k ++ ": " ++ goQuote ((emLookup m1 k).getD "") ++ ",\n") =
      (fun k => goQuote k ++ ": " ++ goQuote ((emLookup m2 k).getD "") ++ ",\n") := by
    funext k
    rw [TCStatus.emLookup_eq_of_perm h nd k]
  rw [hk, hemp, hf]

theorem ppServicesMap_eq_of_perm {m1 m2 : List (String × Service)} (h : m1.Perm m2)
    (nd : (emKeys m1).Nodup) : ppServicesMap m1 = ppServicesMap m2 := by
  unfold ppServicesMap
  have hk : sortStrings (emKeys m1) = sortStrings (emKeys m2) :=
    sortStrings_eq_of_perm (h.map Prod.fst)
  have hemp : m1.isEmpty = m2.isEmpty := isEmpty_eq_of_perm h
  have hf : (fun k =>
        goQuote k ++ ": " ++
          ppService ((emLookup m1 k).getD { baseURL := "", entries := [] }) ++ ",\n") =
      (fun k =>
        goQuote k ++ ": " ++
          ppService ((emLookup m2 k).getD { baseURL := "", entries := [] }) ++ ",\n") := by
    funext k
    rw [TCStatus.emLookup_eq_of_perm h nd k]
  rw [hk, hemp, hf]

/-- C5: emission is deterministic — two runs over the same services map
and the same schemas map (Go map iteration may present the pairs in any
order, modelled as a permutation) produce byte-identical output, and the
key sequence each map emission iterates is the lexicographically sorted
arrangement of the map's keys. -/
theorem prettyPrint_deterministic (s1 s2 : List (String × Service))
    (m1 m2 : List (String × String))
    (hs : s1.Perm s2) (hsn : (emKeys s1).Nodup)
    (hm : m1.Perm m2) (hmn : (emKeys m1).Nodup) :
    ppServicesMap s1 = ppServicesMap s2 ∧
    ppSchemasMap m1 = ppSchemasMap m2 ∧
    (sortStrings (emKeys s1)).Sorted (fun a b => a ≤ b) ∧
    (sortStrings (emKeys s1)).Perm (emKeys s1) ∧
    (sortStrings (emKeys m1)).Sorted (fun a b => a ≤ b) ∧
    (sortStrings (emKeys m1)).Perm (emKeys m1) :=
  ⟨ppServicesMap_eq_of_perm hs hsn, ppSchemasMap_eq_of_perm hm hmn,
   List.sorted_insertionSort _ _, List.perm_insertionSort _ _,
   List.sorted_insertionSort _ _, List.perm_insertionSort _ _⟩

end TCApis

namespace TCStatus

theorem foldlM_decodePingStep_strs (l : List (String × String)) :
    ∀ m0 : PingURLs,
      (l.map (fun kv => (kv.1, Json.str kv.2))).foldlM decodePingStep m0 =
        .ok (l.foldl (fun m kv => emInsert m kv.1 kv.2) m0) := by
  induction l with
  | nil =>
    intro m0
    rfl
  | cons kv rest ih =>
    intro m0
    rw [List.map_cons, List.foldlM_cons]
    exact ih (emInsert m0 kv.1 kv.2)

theorem decodePingURLs_encodePingURLs (E : PingURLs) (hnd : (emKeys E).Nodup) :
    decodePingURLs (encodePingURLs E) = .ok (sortByKey E) := by
  show ((sortByKey E).map (fun kv => (kv.1, Json.str kv.2))).foldlM decodePingStep [] =
    .ok (sortByKey E)
  rw [foldlM_decodePingStep_strs (sortByKey E) []]
  have hperm : (sortByKey E).Perm E := List.perm_insertionSort _ E
  have hnd2 : (emKeys (sortByKey E)).Nodup := ((hperm.map Prod.fst).nodup_iff).mpr hnd
  rw [foldl_emInsert_append (sortByKey E) [] (fun p _ => by simp [emKeys]) hnd2]
  rfl

theorem decodeCachedURLs_encodeCachedURLs (c : CachedURLs)
    (hnd : (emKeys c.pingURLs).Nodup) :
    decodeCachedURLs (encodeCachedURLs c) =
      .ok { lastUpdated := c.lastUpdated, pingURLs := sortByKey c.pingURLs } := by
  simp [encodeCachedURLs, decodeCachedURLs,
    decodePingURLs_encodePingURLs c.pingURLs hnd, Except.map]
  rfl

/-- C2: saving an EndpointMap through `Cache` and loading it back with
`ReadCachedURLsFile` from the cache file yields a record whose
`PingURLs` agrees with the original map on every key and has the same
key set (insertion order may differ: the stored form is key-sorted). -/
theorem cache_roundtrip (home : String) (E : PingURLs) (path : String) (now : Int)
    (fs : FS) (hnd : (emKeys E).Nodup) :
    ∃ c : CachedURLs,
      ReadCachedURLsFile (CacheFilePath home) (Cache home E path now fs).2 = .ok c ∧
      (∀ k, emLookup c.pingURLs k = emLookup E k) ∧
      (∀ k, k ∈ emKeys c.pingURLs ↔ k ∈ emKeys E) := by
  have hperm : (sortByKey E).Perm E := List.perm_insertionSort _ E
  have hnd2 : (emKeys (sortByKey E)).Nodup := ((hperm.map Prod.fst).nodup_iff).mpr hnd
  refine ⟨{ lastUpdated := now, pingURLs := sortByKey E }, ?_, ?_, ?_⟩
  · have hfile : (Cache home E path now fs).2.files (CacheFilePath home) =
        some (encodeCachedURLs { lastUpdated := now, pingURLs := E }) := by
      simp [Cache]
    unfold ReadCachedURLsFile
    rw [hfile]
    exact decodeCachedURLs_encodeCachedURLs { lastUpdated := now, pingURLs := E } hnd
  · intro k
    exact emLookup_eq_of_perm hperm hnd2 k
  · intro k
    exact (hperm.map Prod.fst).mem_iff

/-- C2, witness: a concrete two-entry map survives the round trip with
identical lookups and key set. -/
theorem cache_roundtrip_witness :
    ∃ c : CachedURLs,
      ReadCachedURLsFile (CacheFilePath "/h")
          (Cache "/h" [("b", "2"), ("a", "1")] "/p" 5 fs0).2 = .ok c ∧
      (∀ k, emLookup c.pingURLs k = emLookup [("b", "2"), ("a", "1")] k) ∧
      (∀ k, k ∈ emKeys c.pingURLs ↔ k ∈ emKeys [("b", "2"), ("a", "1")]) :=
  cache_roundtrip "/h" [("b", "2"), ("a", "1")] "/p" 5 fs0 (by decide)

end TCStatus

namespace TCApis

open TCStatus (emInsert emLookup emKeys)

/-- C5, witness: two iteration orders of concrete two-entry maps emit
identical bytes. -/
theorem prettyPrint_deterministic_witness :
    ppServicesMap [("a", { baseURL := "u", entries := [] }),
                   ("b", { baseURL := "v", entries := [] })] =
      ppServicesMap [("b", { baseURL := "v", entries := [] }),
                     ("a", { baseURL := "u", entries := [] })] ∧
    ppSchemasMap [("x", "1"), ("y", "2")] = ppSchemasMap [("y", "2"), ("x", "1")] := by
  have h := prettyPrint_deterministic
    [("a", { baseURL := "u", entries := [] }), ("b", { baseURL := "v", entries := [] })]
    [("b", { baseURL := "v", entries := [] }), ("a", { baseURL := "u", entries := [] })]
    [("x", "1"), ("y", "2")] [("y", "2"), ("x", "1")]
    (List.Perm.swap _ _ _) (by decide) (List.Perm.swap _ _ _) (by decide)
  exact ⟨h.1, h.2.1⟩

end TCApis


namespace TCStatus

theorem hasPingB_iff_find (r : API) :
    hasPingB r = true ↔
      ∃ entry, r.entries.find? (fun e => e.name = "ping") = some entry := by
  unfold hasPingB
  rw [List.any_eq_true]
  constructor
  · rintro ⟨e, he, hp⟩
    have hs : (r.entries.find? (fun e => e.name = "ping")).isSome :=
      List.find?_isSome.mpr ⟨e, he, hp⟩
    exact Option.isSome_iff_exists.mp hs
  · rintro ⟨entry, hf⟩
    exact ⟨entry, List.mem_of_find?_eq_some hf, by simpa using List.find?_some hf⟩

theorem scrapePureStep_of_find_none (host : String → String) (refs : String → API)
    (m0 : PingURLs) (u : String)
    (h : (refs u).entries.find? (fun e => e.name = "ping") = none) :
    scrapePureStep host refs m0 u = m0 := by
  unfold scrapePureStep
  rw [h]

theorem scrapePureStep_of_find_some (host : String → String) (refs : String → API)
    (m0 : PingURLs) (u : String) (entry : APIEntry)
    (h : (refs u).entries.find? (fun e => e.name = "ping") = some entry) :
    scrapePureStep host refs m0 u =
      emInsert m0 (serviceIdent (host (refs u).baseURL))
        ((refs u).baseURL ++ entry.route) := by
  unfold scrapePureStep
  rw [h]

theorem lastPingStep_of_find_none (host : String → String) (refs : String → API)
    (k : String) (acc : Option String) (u : String)
    (h : (refs u).entries.find? (fun e => e.name = "ping") = none) :
    lastPingStep host refs k acc u = acc := by
  unfold lastPingStep
  rw [h]

theorem lastPingStep_of_find_some (host : String → String) (refs : String → API)
    (k : String) (acc : Option String) (u : String) (entry : APIEntry)
    (h : (refs u).entries.find? (fun e => e.name = "ping") = some entry) :
    lastPingStep host refs k acc u =
      if serviceIdent (host (refs u).baseURL) = k
      then some ((refs u).baseURL ++ entry.route) else acc := by
  unfold lastPingStep
  rw [h]

theorem scrapeStep_ok (f : Fetcher) (host : String → String) (refs : String → API)
    (u : String) (m0 : PingURLs) (hr : f.ref u = .ok (refs u))
    (hh : hasPingB (refs u) = true →
      f.hostOf (refs u).baseURL = .ok (host (refs u).baseURL)) :
    scrapeStep f m0 u = .ok (scrapePureStep host refs m0 u) := by
  simp only [scrapeStep, scrapePureStep, hr]
  cases hping : (refs u).entries.find? (fun e => e.name = "ping") with
  | none => rfl
  | some entry =>
    rw [hh ((hasPingB_iff_find (refs u)).mpr ⟨entry, hping⟩)]

theorem scrape_exec (f : Fetcher) (host : String → String) (refs : String → API) :
    ∀ (urls : List String) (m0 : PingURLs),
      (∀ u ∈ urls, f.ref u = .ok (refs u)) →
      (∀ u ∈ urls, hasPingB (refs u) = true →
        f.hostOf (refs u).baseURL = .ok (host (refs u).baseURL)) →
      urls.foldlM (scrapeStep f) m0 = .ok (scrapePure host refs urls m0) := by
  intro urls
  induction urls with
  | nil =>
    intro m0 _ _
    rfl
  | cons u rest ih =>
    intro m0 href hhost
    rw [List.foldlM_cons,
      scrapeStep_ok f host refs u m0 (href u (List.mem_cons_self u rest))
        (hhost u (List.mem_cons_self u rest))]
    exact ih (scrapePureStep host refs m0 u)
      (fun v hv => href v (List.mem_cons_of_mem u hv))
      (fun v hv => hhost v (List.mem_cons_of_mem u hv))

theorem mem_emKeys_scrapePure (host : String → String) (refs : String → API) :
    ∀ (urls : List String) (m0 : PingURLs) (k : String),
      k ∈ emKeys (scrapePure host refs urls m0) ↔
        k ∈ emKeys m0 ∨
          ∃ u, u ∈ urls ∧ hasPingB (refs u) = true ∧
            serviceIdent (host (refs u).baseURL) = k := by
  intro urls
  induction urls with
  | nil =>
    intro m0 k
    simp [scrapePure]
  | cons u rest ih =>
    intro m0 k
    rw [show scrapePure host refs (u :: rest) m0 =
          scrapePure host refs rest (scrapePureStep host refs m0 u) from rfl,
      ih (scrapePureStep host refs m0 u) k]
    cases hping : (refs u).entries.find? (fun e => e.name = "ping") with
    | none =>
      have hnp : hasPingB (refs u) = false := by
        rw [← Bool.not_eq_true, hasPingB_iff_find]
        rintro ⟨entry, hf⟩
        rw [hping] at hf
        cases hf
      have hstep : scrapePureStep host refs m0 u = m0 := by
        unfold scrapePureStep
        rw [hping]
      rw [hstep]
      constructor
      · rintro (hm0 | ⟨v, hv, hp, hk⟩)
        · exact Or.inl hm0
        · exact Or.inr ⟨v, List.mem_cons_of_mem u hv, hp, hk⟩
      · rintro (hm0 | ⟨v, hv, hp, hk⟩)
        · exact Or.inl hm0
        · rcases List.mem_cons.mp hv with rfl | hv2
          · rw [hnp] at hp
            cases hp
          · exact Or.inr ⟨v, hv2, hp, hk⟩
    | some entry =>
      have hp2 : hasPingB (refs u) = true :=
        (hasPingB_iff_find (refs u)).mpr ⟨entry, hping⟩
      have hstep : scrapePureStep host refs m0 u =
          emInsert m0 (serviceIdent (host (refs u).baseURL))
            ((refs u).baseURL ++ entry.route) := by
        unfold scrapePureStep
        rw [hping]
      rw [hstep, mem_emKeys_emInsert]
      constructor
      · rintro ((hm0 | hk) | ⟨v, hv, hp, hk⟩)
        · exact Or.inl hm0
        · exact Or.inr ⟨u, List.mem_cons_self u rest, hp2, hk.symm⟩
        · exact Or.inr ⟨v, List.mem_cons_of_mem u hv, hp, hk⟩
      · rintro (hm0 | ⟨v, hv, hp, hk⟩)
        · exact Or.inl (Or.inl hm0)
        · rcases List.mem_cons.mp hv with rfl | hv2
          · exact Or.inl (Or.inr hk.symm)
          · exact Or.inr ⟨v, hv2, hp, hk⟩

theorem foldl_lastPingStep_acc (host : String → String) (refs : String → API) (k : String) :
    ∀ (urls : List String) (acc : Option String),
      urls.foldl (lastPingStep host refs k) acc =
        orDefault (lastPingVal host refs urls k) acc := by
  intro urls
  induction urls with
  | nil =>
    intro acc
    rfl
  | cons u rest ih =>
    intro acc
    rw [List.foldl_cons,
      show lastPingVal host refs (u :: rest) k =
        rest.foldl (lastPingStep host refs k) (lastPingStep host refs k none u) from rfl,
      ih (lastPingStep host refs k acc u),
      ih (lastPingStep host refs k none u)]
    cases hF : lastPingVal host refs rest k with
    | some v => rfl
    | none =>
      show lastPingStep host refs k acc u = orDefault (lastPingStep host refs k none u) acc
      cases hping : (refs u).entries.find? (fun e => e.name = "ping") with
      | none =>
        rw [lastPingStep_of_find_none host refs k acc u hping,
          lastPingStep_of_find_none host refs k none u hping]
        rfl
      | some entry =>
        rw [lastPingStep_of_find_some host refs k acc u entry hping,
          lastPingStep_of_find_some host refs k none u entry hping]
        by_cases hid : serviceIdent (host (refs u).baseURL) = k
        · rw [if_pos hid, if_pos hid]
          rfl
        · rw [if_neg hid, if_neg hid]
          rfl

theorem emLookup_scrapePure (host : String → String) (refs : String → API) :
    ∀ (urls : List String) (m0 : PingURLs) (k : String),
      emLookup (scrapePure host refs urls m0) k =
        orDefault (lastPingVal host refs urls k) (emLookup m0 k) := by
  intro urls
  induction urls with
  | nil =>
    intro m0 k
    rfl
  | cons u rest ih =>
    intro m0 k
    rw [show scrapePure host refs (u :: rest) m0 =
          scrapePure host refs rest (scrapePureStep host refs m0 u) from rfl,
      ih (scrapePureStep host refs m0 u) k,
      show lastPingVal host refs (u :: rest) k =
          rest.foldl (lastPingStep host refs k) (lastPingStep host refs k none u) from rfl,
      foldl_lastPingStep_acc host refs k rest (lastPingStep host refs k none u)]
    cases hF : lastPingVal host refs rest k with
    | some v => rfl
    | none =>
      show emLookup (scrapePureStep host refs m0 u) k =
        orDefault (lastPingStep host refs k none u) (emLookup m0 k)
      cases hping : (refs u).entries.find? (fun e => e.name = "ping") with
      | none =>
        rw [scrapePureStep_of_find_none host refs m0 u hping,
          lastPingStep_of_find_none host refs k none u hping]
        rfl
      | some entry =>
        rw [scrapePureStep_of_find_some host refs m0 u entry hping,
          lastPingStep_of_find_some host refs k none u entry hping, emLookup_emInsert]
        by_cases hid : serviceIdent (host (refs u).baseURL) = k
        · rw [if_pos hid.symm, if_pos hid]
          rfl
        · rw [if_neg (fun h => hid h.symm), if_neg hid]
          rfl

theorem lastPingVal_some (host : String → String) (refs : String → API) (k : String) :
    ∀ (urls : List String) (v : String),
      lastPingVal host refs urls k = some v →
      ∃ u entry, u ∈ urls ∧
        (refs u).entries.find? (fun e => e.name = "ping") = some entry ∧
        serviceIdent (host (refs u).baseURL) = k ∧
        v = (refs u).baseURL ++ entry.route := by
  intro urls
  induction urls with
  | nil =>
    intro v hv
    cases hv
  | cons u rest ih =>
    intro v hv
    rw [show lastPingVal host refs (u :: rest) k =
        rest.foldl (lastPingStep host refs k) (lastPingStep host refs k none u) from rfl,
      foldl_lastPingStep_acc host refs k rest (lastPingStep host refs k none u)] at hv
    cases hF : lastPingVal host refs rest k with
    | some w =>
      rw [hF] at hv
      have hw : w = v := by
        simpa [orDefault] using hv
      rcases ih w hF with ⟨z, ez, hz, hfind, hid, hval⟩
      exact ⟨z, ez, List.mem_cons_of_mem u hz, hfind, hid, hw ▸ hval⟩
    | none =>
      rw [hF] at hv
      have hv2 : lastPingStep host refs k none u = some v := hv
      cases hping : (refs u).entries.find? (fun e => e.name = "ping") with
      | none =>
        rw [lastPingStep_of_find_none host refs k none u hping] at hv2
        cases hv2
      | some entry =>
        rw [lastPingStep_of_find_some host refs k none u entry hping] at hv2
        by_cases hid : serviceIdent (host (refs u).baseURL) = k
        · rw [if_pos hid] at hv2
          cases hv2
          exact ⟨u, entry, List.mem_cons_self u rest, hping, hid, rfl⟩
        · rw [if_neg hid] at hv2
          cases hv2

theorem lastPingVal_mem_isSome (host : String → String) (refs : String → API) (k : String) :
    ∀ (urls : List String) (u : String) (entry : APIEntry), u ∈ urls →
      (refs u).entries.find? (fun e => e.name = "ping") = some entry →
      serviceIdent (host (refs u).baseURL) = k →
      ∃ w, lastPingVal host refs urls k = some w := by
  intro urls
  induction urls with
  | nil =>
    intro u entry hu
    cases hu
  | cons x rest ih =>
    intro u entry hu hfind hid
    rw [show lastPingVal host refs (x :: rest) k =
        rest.foldl (lastPingStep host refs k) (lastPingStep host refs k none x) from rfl,
      foldl_lastPingStep_acc host refs k rest (lastPingStep host refs k none x)]
    cases hF : lastPingVal host refs rest k with
    | some w => exact ⟨w, rfl⟩
    | none =>
      rcases List.mem_cons.mp hu with rfl | hmem
      · refine ⟨(refs u).baseURL ++ entry.route, ?_⟩
        show lastPingStep host refs k none u = some ((refs u).baseURL ++ entry.route)
        rw [lastPingStep_of_find_some host refs k none u entry hfind, if_pos hid]
      · rcases ih u entry hmem hfind hid with ⟨w, hw⟩
        rw [hF] at hw
        cases hw

/-- C1: on a valid manifest whose references all fetch and parse, the
scraped EndpointMap's key set is exactly the set of identifiers derived
from the base-URL hostname prefix (up to the first ".") of each
reference that has an entry named "ping" (case-sensitive), and — when
references sharing an identifier agree on their ping URL, as they do
when identifiers are unique — the value for each included service is
`baseURL + route` of the first entry named "ping". -/
theorem scrapePingURLs_spec (f : Fetcher) (host : String → String) (refs : String → API)
    (urls : List String)
    (hman : f.manifest = .ok urls)
    (href : ∀ u ∈ urls, f.ref u = .ok (refs u))
    (hhost : ∀ u ∈ urls, hasPingB (refs u) = true →
      f.hostOf (refs u).baseURL = .ok (host (refs u).baseURL))
    (hagree : ∀ u ∈ urls, ∀ v ∈ urls,
      hasPingB (refs u) = true → hasPingB (refs v) = true →
      specIdent (host (refs u).baseURL) = specIdent (host (refs v).baseURL) →
      pingURLOf (refs u) = pingURLOf (refs v)) :
    ∃ m, ScrapePingURLs f = .ok m ∧
      (∀ k, k ∈ emKeys m ↔
        ∃ u, u ∈ urls ∧ hasPingB (refs u) = true ∧
          specIdent (host (refs u).baseURL) = k) ∧
      (∀ u ∈ urls, ∀ entry,
        (refs u).entries.find? (fun e => e.name = "ping") = some entry →
        emLookup m (specIdent (host (refs u).baseURL)) =
          some ((refs u).baseURL ++ entry.route)) := by
  refine ⟨scrapePure host refs urls [], ?_, ?_, ?_⟩
  · unfold ScrapePingURLs
    rw [hman]
    exact scrape_exec f host refs urls [] href hhost
  · intro k
    rw [mem_emKeys_scrapePure host refs urls [] k]
    simp only [serviceIdent_eq_specIdent]
    constructor
    · rintro (hm0 | h)
      · simp [emKeys] at hm0
      · exact h
    · exact Or.inr
  · intro u hu entry hentry
    rw [← serviceIdent_eq_specIdent, emLookup_scrapePure host refs urls []]
    rcases lastPingVal_mem_isSome host refs (serviceIdent (host (refs u).baseURL)) urls
      u entry hu hentry rfl with ⟨w, hw⟩
    rcases lastPingVal_some host refs _ urls w hw with ⟨z, ez, hz, hfz, hidz, hvz⟩
    have hpu : hasPingB (refs u) = true := (hasPingB_iff_find (refs u)).mpr ⟨entry, hentry⟩
    have hpz : hasPingB (refs z) = true := (hasPingB_iff_find (refs z)).mpr ⟨ez, hfz⟩
    have hideq : specIdent (host (refs z).baseURL) = specIdent (host (refs u).baseURL) := by
      rw [← serviceIdent_eq_specIdent, ← serviceIdent_eq_specIdent, hidz]
    have hval := hagree z hz u hu hpz hpu hideq
    have hpz2 : pingURLOf (refs z) = (refs z).baseURL ++ ez.route := by
      unfold pingURLOf
      rw [hfz]
    have hpu2 : pingURLOf (refs u) = (refs u).baseURL ++ entry.route := by
      unfold pingURLOf
      rw [hentry]
    rw [hw]
    show some w = some ((refs u).baseURL ++ entry.route)
    rw [hvz, ← hpz2, hval, hpu2]

/-- C1, witness: the queue scenario from the spec — a one-service
manifest whose reference carries a ping entry yields the map from
"queue" to the composed health URL. -/
theorem scrapePingURLs_spec_witness :
    ∃ m, ScrapePingURLs okFetcher = .ok m ∧
      (∀ k, k ∈ emKeys m ↔
        ∃ u, u ∈ ["https://refs.example/queue.json"] ∧ hasPingB (constRefs u) = true ∧
          specIdent (constHost (constRefs u).baseURL) = k) ∧
      (∀ u ∈ ["https://refs.example/queue.json"], ∀ entry,
        (constRefs u).entries.find? (fun e => e.name = "ping") = some entry →
        emLookup m (specIdent (constHost (constRefs u).baseURL)) =
          some ((constRefs u).baseURL ++ entry.route)) :=
  scrapePingURLs_spec okFetcher constHost constRefs ["https://refs.example/queue.json"]
    rfl (fun _ _ => rfl) (fun _ _ _ => rfl) (fun _ _ _ _ _ _ _ => rfl)

end TCStatus
